import Mathlib

/-!
Verification development for the text-analytics core of the resume builder
(`app.py`): tokenization, n-grams, TF-IDF, keyword extraction, keyword
merging, summary synthesis, STAR bullets and cover-letter generation.

Python strings are modelled as Lean `String`/`List Char`.  Python's
unicode-aware character classes (`\w`, `\s`, `str.lower`) are modelled by
their ASCII behaviour, which is exact on ASCII input; all concrete inputs
used below are ASCII.
-/

set_option maxRecDepth 8000

namespace ResumeApp

/-! ## Character classes -/

/-- A word character for the regex `\b` boundary (Python `\w`, ASCII part). -/
def isWordChar (c : Char) : Bool := c.isAlphanum || c = '_'

/-- A character matched by the regex class `[a-z]`. -/
def isLowerAZ (c : Char) : Bool := 'a' ≤ c && c ≤ 'z'

/-- A character matched by the regex class `[_-]`. -/
def isSep (c : Char) : Bool := c = '_' || c = '-'

/-- Python `str.lower` (ASCII model): lowercase every character. -/
def lowerStr (s : String) : String := String.mk (s.data.map Char.toLower)

/-! ## The regex `\b[a-z]+(?:[_-][a-z]+)*\b` (re.findall)

`segEndsF` lists, in increasing length, the candidate matches starting at the
head of the input: one per `(?:[_-][a-z]+)*` group end, each paired with the
remaining input.  `pickEnd` implements the greedy backtracking of the trailing
`\b`: the longest candidate whose remainder starts at a word boundary wins.
`findWordsAux` scans the text left to right like `re.findall`, tracking the
previous character for the leading `\b`.  Fuel equals the input length, which
is enough since every step consumes at least one character. -/

def segEndsF : Nat → List Char → List (List Char × List Char)
  | 0, _ => []
  | fuel + 1, cs =>
    let run := cs.takeWhile isLowerAZ
    let rest := cs.dropWhile isLowerAZ
    (run, rest) ::
      (match rest with
       | s :: c :: rest' =>
         if isSep s && isLowerAZ c then
           (segEndsF fuel (c :: rest')).map (fun p => (run ++ s :: p.1, p.2))
         else []
       | _ => [])

/-- The trailing `\b` after a letter: the remainder is empty or starts with a
non-word character. -/
def boundaryOk : List Char → Bool
  | [] => true
  | c :: _ => !isWordChar c

/-- Last candidate (longest match) whose remainder passes `boundaryOk`. -/
def pickEnd : List (List Char × List Char) → Option (List Char × List Char)
  | [] => none
  | p :: ps =>
    match pickEnd ps with
    | some q => some q
    | none => if boundaryOk p.2 then some p else none

/-- Whether the previous character (none at the start of the text) is a word
character, for the leading `\b`. -/
def prevWord : Option Char → Bool
  | none => false
  | some c => isWordChar c

def findWordsAux : Nat → Option Char → List Char → List (List Char)
  | 0, _, _ => []
  | _ + 1, _, [] => []
  | fuel + 1, prev, c :: rest =>
    if isLowerAZ c && !prevWord prev then
      match pickEnd (segEndsF (c :: rest).length (c :: rest)) with
      | some (m, r) => m :: findWordsAux fuel (some (m.getLastD c)) r
      | none => findWordsAux fuel (some c) rest
    else findWordsAux fuel (some c) rest

/-- `re.findall(r'\b[a-z]+(?:[_-][a-z]+)*\b', ·)` on a character list. -/
def findWords (cs : List Char) : List (List Char) :=
  findWordsAux (cs.length + 1) none cs

/-! ## tokenize (app.py lines 63-77) -/

/-- The stop-word set of `tokenize`. -/
def stop_words : List String :=
  ["the", "a", "an", "and", "or", "but", "in", "on", "at", "to", "for",
   "of", "with", "by", "from", "is", "are", "was", "were", "be", "have",
   "has", "had", "do", "does", "did", "will", "would", "could", "should",
   "may", "might", "must", "can", "this", "that", "these", "those", "i",
   "you", "he", "she", "it", "we", "they", "what", "which", "who", "when",
   "where", "why", "how", "all", "each", "every", "both", "few", "more",
   "most", "other", "some", "such", "no", "nor", "not", "only", "same",
   "so", "than", "too", "very", "as", "if", "just", "about", "into"]

/-- `tokenize`: lowercase, extract word spans, drop stop words and words of
length ≤ 2. -/
def tokenize (text : String) : List String :=
  let words := (findWords (lowerStr text).data).map String.mk
  words.filter (fun w => !stop_words.contains w && 2 < w.length)

/-! ## extract_ngrams (app.py lines 80-85) -/

/-- Python `' '.join` on a list of strings. -/
def joinSpStr : List String → String
  | [] => ""
  | [w] => w
  | w :: ws => w ++ " " ++ joinSpStr ws

/-- Python `', '.join` on a list of strings. -/
def joinCommaSp : List String → String
  | [] => ""
  | [w] => w
  | w :: ws => w ++ ", " ++ joinCommaSp ws

/-- `extract_ngrams`: the `max(0, L-n+1)` space-joined windows of `n`
consecutive words, in order. -/
def extract_ngrams (words : List String) (n : Nat) : List String :=
  (List.range (words.length + 1 - n)).map (fun i => joinSpStr ((words.drop i).take n))

/-! ## Keyword extraction (app.py lines 123-170) -/

/-- Python `needle in haystack` substring containment, on character lists. -/
def isSubstr (needle : List Char) : List Char → Bool
  | [] => needle.isEmpty
  | c :: rest => needle.isPrefixOf (c :: rest) || isSubstr needle rest

/-- First-occurrence deduplication (worker): keep an element unless it was
already seen. -/
def dedupFirstAux (seen : List String) : List String → List String
  | [] => []
  | x :: xs =>
    if seen.contains x then dedupFirstAux seen xs
    else x :: dedupFirstAux (x :: seen) xs

/-- First-occurrence deduplication: the model of iterating `set(xs)` /
`Counter(xs)` keys, taking each element at its first occurrence. -/
def dedupFirst (l : List String) : List String := dedupFirstAux [] l

/-- Stable insertion for a descending sort by count: an element goes before
the first strictly smaller count, so equal counts keep first-occurrence
order.  Models `sorted(..., key=count, reverse=True)` / `Counter.most_common`
on first-occurrence-ordered keys. -/
def insertByCount (cnt : String → Nat) (x : String) : List String → List String
  | [] => [x]
  | y :: ys => if cnt y ≤ cnt x then x :: y :: ys else y :: insertByCount cnt x ys

/-- Sort descending by count, stable (ties keep list order). -/
def sortByCountDesc (cnt : String → Nat) (l : List String) : List String :=
  l.foldr (insertByCount cnt) []

/-- The fixed gazetteer `common_keywords` of `extract_keywords`. -/
def common_keywords : List String :=
  ["python", "java", "javascript", "sql", "machine learning", "data science",
   "cloud", "aws", "azure", "docker", "kubernetes", "agile", "scrum",
   "project management", "leadership", "communication", "analytics",
   "deep learning", "neural networks", "nlp", "computer vision",
   "tensorflow", "pytorch", "pandas", "numpy",
   "git", "github", "cicd", "rest api", "microservices", "api", "database"]

/-- Steps 1-2 of `extract_keywords`: unigrams plus bigrams, ranked by
frequency (descending, ties in first-occurrence order as in `Counter`),
top 20, keeping terms with count ≥ 1. -/
def extractedTerms (job_description : String) : List String :=
  let tokens := tokenize job_description
  let all_terms := tokens ++ extract_ngrams tokens 2
  let sorted_terms := sortByCountDesc (fun t => all_terms.count t) (dedupFirst all_terms)
  (sorted_terms.take 20).filter (fun t => 1 ≤ all_terms.count t)

/-- Step 3 of `extract_keywords`: gazetteer terms occurring as substrings of
the lowercased text. -/
def foundCommon (job_description : String) : List String :=
  common_keywords.filter (fun kw => isSubstr kw.data (lowerStr job_description).data)

/-- `extract_keywords`: union of the top-20 frequency terms with the gazetteer
matches, deduplicated, capped at 25 (`list(set(...))[:25]`, with the set
iteration modelled as first-occurrence order). -/
def extract_keywords (job_description : String) : List String :=
  if job_description = "" then []
  else (dedupFirst (extractedTerms job_description ++ foundCommon job_description)).take 25

/-- The `except` handler of `extract_keywords` (lines 167-170): gazetteer
matches only, capped at 15. -/
def extract_keywordsFallback (job_description : String) : List String :=
  (foundCommon job_description).take 15

/-- The body of the `try` block as an explicit pipeline in `Except`: each
step of the source (tokenize, n-grams, counting/sorting, union/dedup) is a
total operation, so each is entered as a successful step. -/
def extract_keywordsTry (job_description : String) : Except String (List String) := do
  let tokens ← Except.ok (tokenize job_description)
  let all_terms ← Except.ok (tokens ++ extract_ngrams tokens 2)
  let sorted_terms ← Except.ok (sortByCountDesc (fun t => all_terms.count t) (dedupFirst all_terms))
  let extracted ← Except.ok ((sorted_terms.take 20).filter (fun t => 1 ≤ all_terms.count t))
  let found ← Except.ok (common_keywords.filter (fun kw => isSubstr kw.data (lowerStr job_description).data))
  Except.ok ((dedupFirst (extracted ++ found)).take 25)

/-! ## merge_keywords (app.py lines 176-191) -/

/-- `merge_keywords`: append the first 10 keywords missing from the
lowercased resume under a "Skills" heading; unchanged when none are missing
or the list is empty. -/
def merge_keywords (resume_text : String) (keywords : List String) : String :=
  if keywords = [] then resume_text
  else
    let resume_lower := lowerStr resume_text
    let missing := keywords.filter (fun kw => !isSubstr kw.data resume_lower.data)
    if missing ≠ [] then
      let heading :=
        if isSubstr "skills".data resume_lower.data || isSubstr "technical".data resume_lower.data
        then "\n\nAdditional Skills: " else "\n\nRelevant Skills: "
      resume_text ++ (heading ++ joinCommaSp (missing.take 10))
    else resume_text

/-! ## enhance_resume (app.py lines 197-229) -/

/-- The maximal whitespace-free runs of a character list: Python `str.split()`
with no argument.  Fuel equals the input length; every step consumes at least
one character. -/
def wsWordsF : Nat → List Char → List (List Char)
  | 0, _ => []
  | fuel + 1, cs =>
    match cs.dropWhile Char.isWhitespace with
    | [] => []
    | c :: rest =>
      ((c :: rest).takeWhile (fun d => !d.isWhitespace)) ::
        wsWordsF fuel ((c :: rest).dropWhile (fun d => !d.isWhitespace))

/-- Python `' '.join(` a list of character lists `)`. -/
def joinSp : List (List Char) → List Char
  | [] => []
  | [w] => w
  | w :: ws => w ++ ' ' :: joinSp ws

/-- `' '.join(text.split())`: collapse internal whitespace. -/
def collapseWS (s : String) : String :=
  String.mk (joinSp (wsWordsF (s.data.length + 1) s.data))

/-- The fixed generic sentence `enhance_resume` returns for empty input. -/
def genericSummary : String :=
  "Motivated student seeking opportunities to apply skills, " ++
  "gain professional experience, and contribute effectively to organizational goals."

/-- `enhance_resume`: collapse whitespace; fall back on empty input; rank
tokens by frequency (`Counter.most_common(8)`), default terms when none
survive; splice in up to 3 job keywords when a job description is given;
render the fixed template. -/
def enhance_resume (resume_text : String) (job_description : String) : String :=
  let resume_text := collapseWS resume_text
  if resume_text = "" then genericSummary
  else
    let tokens := tokenize resume_text
    let top_keywords :=
      (sortByCountDesc (fun t => tokens.count t) (dedupFirst tokens)).take 8
    let top_keywords :=
      if top_keywords = [] then ["problem solving", "communication", "teamwork"]
      else top_keywords
    let top_keywords :=
      if job_description ≠ "" then
        let ats_keywords := extract_keywords job_description
        let relevant_ats := (ats_keywords.take 5).filter
          (fun kw => !isSubstr kw.data (lowerStr (joinSpStr top_keywords)).data)
        if relevant_ats ≠ [] then top_keywords.take 5 ++ relevant_ats.take 3
        else top_keywords
      else top_keywords
    "Results-driven student with practical exposure to " ++
      joinCommaSp (top_keywords.take 8) ++
      ". Possesses strong analytical thinking, adaptability, and a continuous learning mindset. " ++
      "Actively seeking opportunities to contribute to impactful projects and grow professionally."

/-! ## generate_star_bullets (app.py lines 232-261) -/

/-- A sentence-ending character of the split regex `[.!?]\s+`. -/
def isSentPunct (c : Char) : Bool := c = '.' || c = '!' || c = '?'

/-- `re.split(r'[.!?]\s+', ·)`: cut at every sentence-ending character that is
followed by whitespace, dropping the punctuation and the whitespace run.
`acc` holds the current segment reversed; fuel equals the input length. -/
def splitSentAux : Nat → List Char → List Char → List (List Char)
  | 0, acc, _ => [acc.reverse]
  | _ + 1, acc, [] => [acc.reverse]
  | fuel + 1, acc, c :: rest =>
    if isSentPunct c && ((rest.head?.map Char.isWhitespace).getD false) then
      acc.reverse :: splitSentAux fuel [] (rest.dropWhile Char.isWhitespace)
    else splitSentAux fuel (c :: acc) rest

def splitSentences (cs : List Char) : List (List Char) :=
  splitSentAux (cs.length + 1) [] cs

/-- Python `str.strip()` (ASCII whitespace model). -/
def trimWS (cs : List Char) : List Char :=
  ((cs.dropWhile Char.isWhitespace).reverse.dropWhile Char.isWhitespace).reverse

/-- Python `str.capitalize()`: first character uppercased, the rest
lowercased. -/
def capitalizeList : List Char → List Char
  | [] => []
  | c :: rest => c.toUpper :: rest.map Char.toLower

/-- The 12 action verbs of `generate_star_bullets`. -/
def action_verbs : List String :=
  ["developed", "implemented", "designed", "created", "managed", "led",
   "improved", "optimized", "achieved", "increased", "reduced", "delivered"]

/-- The bullet marker as it stands in the source file. -/
def bulletMark : String := "‚Ä¢ "

/-- The fixed 3-item generic fallback bullets. -/
def starFallback : List String :=
  [bulletMark ++ "Applied technical skills to solve complex problems and deliver measurable results.",
   bulletMark ++ "Collaborated with team members to achieve project objectives and meet deadlines.",
   bulletMark ++ "Demonstrated strong problem-solving abilities and attention to detail."]

/-- Whether a stripped sentence qualifies for a bullet: length over 20 and an
action verb occurs in its lowercased text. -/
def sentenceQualifies (s : List Char) : Bool :=
  let t := trimWS s
  20 < t.length && action_verbs.any (fun v => isSubstr v.data (t.map Char.toLower))

/-- Format a qualifying stripped sentence as a bullet: marker, capitalize,
ensure a trailing period. -/
def mkBullet (t : List Char) : String :=
  let b := bulletMark ++ String.mk (capitalizeList t)
  match b.data.getLast? with
  | some c => if c = '.' then b else b ++ "."
  | none => b ++ "."

/-- `generate_star_bullets`: empty input gives `[]`; otherwise format the
qualifying sentences among the first 5, fall back to the fixed 3 bullets when
none qualify, cap at 5.  `job_keywords` is accepted and unused, as in the
source. -/
def generate_star_bullets (experience_text : String) (job_keywords : List String) : List String :=
  if experience_text = "" then []
  else
    let sentences := splitSentences experience_text.data
    let bullets := (sentences.take 5).filterMap
      (fun s => if sentenceQualifies s then some (mkBullet (trimWS s)) else none)
    (if bullets = [] then starFallback else bullets).take 5

/-! ## generate_cover_letter (app.py lines 264-293) -/

/-- Python `str(list_of_strings)`: the repr interpolated by the f-string when
a list lands in it. -/
def listRepr (l : List String) : String :=
  "[" ++ joinCommaSp (l.map (fun s => "'" ++ s ++ "'")) ++ "]"

/-- `generate_cover_letter`: the short template when the job description is
empty (interpolating the Python repr of the top-3 keyword list, or the
literal fallback phrase), the long template otherwise. -/
def generate_cover_letter (name : String) (job_description : String) (resume_text : String) : String :=
  if job_description = "" then
    "Dear Hiring Manager,\n\n" ++
    "I am writing to express my interest in the position. " ++
    "With my background in " ++
    (if resume_text ≠ "" then listRepr ((extract_keywords resume_text).take 3)
     else "relevant field") ++
    ", I am confident I would be a valuable addition to your team.\n\n" ++
    "Sincerely,\n" ++ (if name ≠ "" then name else "Your Name")
  else
    let keywords := extract_keywords job_description
    let skills_mentioned :=
      if keywords ≠ [] then joinCommaSp (keywords.take 5) else "relevant skills"
    "Dear Hiring Manager,\n\n" ++
    "I am writing to express my strong interest in the position. With my background in " ++
    skills_mentioned ++ ", \nI am excited about the opportunity to contribute to your team.\n\n" ++
    "My experience aligns well with the requirements you've outlined. I have a proven track record of \n" ++
    "delivering results and working collaboratively in dynamic environments.\n\n" ++
    "I am eager to discuss how my skills and experience can benefit your organization. Thank you for \n" ++
    "considering my application.\n\n" ++
    "Sincerely,\n" ++ (if name ≠ "" then name else "Your Name")

/-! ## calculate_tfidf (app.py lines 88-117)

Scores are real numbers; `math.log` is the natural logarithm `Real.log`.
The returned dict maps each term to its `(document index, score)` pairs;
`tfidfEntries` is the flat stream of `(term, index, score)` triples in the
order the loops of the source produce them, and `calculate_tfidf` groups it
by term in insertion order. -/

/-- `idf[word] = log(total_docs / (docs_with_word + 1))`. -/
noncomputable def idfOf (documents : List String) (word : String) : ℝ :=
  Real.log ((documents.length : ℝ) /
    (((documents.map tokenize).countP (fun tokens => tokens.contains word) : ℝ) + 1))

/-- `tfidf = (count / len(tokens)) * idf[word]` for `word` in document `i`
(0 when the document has no tokens, as division by zero is 0). -/
noncomputable def rawTfidf (documents : List String) (word : String) (i : Nat) : ℝ :=
  (((tokenize (documents.getD i "")).count word : ℝ) /
      ((tokenize (documents.getD i "")).length : ℝ))
    * idfOf documents word

/-- The `(word, i, score)` triples the nested loops record: for each document
index, each distinct token (in `Counter` first-occurrence order) whose score
exceeds the 0.01 threshold. -/
noncomputable def tfidfEntries (documents : List String) : List (String × Nat × ℝ) :=
  (List.range documents.length).flatMap (fun i =>
    (dedupFirst (tokenize (documents.getD i ""))).filterMap (fun word =>
      if 1 / 100 < rawTfidf documents word i then some (word, i, rawTfidf documents word i)
      else none))

/-- `calculate_tfidf`: the entries grouped by term, keys in insertion order,
each with its `(document index, score)` list. -/
noncomputable def calculate_tfidf (documents : List String) : List (String × List (Nat × ℝ)) :=
  (dedupFirst ((tfidfEntries documents).map (fun e => e.1))).map (fun w =>
    (w, ((tfidfEntries documents).filter (fun e => e.1 = w)).map (fun e => (e.2.1, e.2.2))))

/-- The score `calculate_tfidf` assigns to `(word, i)`: the recorded score,
or 0 when the pair is absent from the returned mapping. -/
noncomputable def tfidfScoreOf (documents : List String) (word : String) (i : Nat) : ℝ :=
  match (tfidfEntries documents).find? (fun e => e.1 = word ∧ e.2.1 = i) with
  | some e => e.2.2
  | none => 0

/-- A job description containing every gazetteer term as a substring: the
counterexample input for the gazetteer-inclusion claim. -/
def jdAllGaz : String :=
  "python java javascript sql machine learning data science cloud aws azure " ++
  "docker kubernetes agile scrum project management leadership communication " ++
  "analytics deep learning neural networks nlp computer vision tensorflow " ++
  "pytorch pandas numpy git github cicd rest api microservices api database"

/-! ## Helper lemmas -/

theorem lowerAZ_toLower_fix {c : Char} (h : isLowerAZ c = true) : c.toLower = c := by
  simp only [isLowerAZ, Bool.and_eq_true, decide_eq_true_eq] at h
  obtain ⟨h1, h2⟩ := h
  simp only [Char.toLower, Char.toNat]
  rw [if_neg]
  rintro ⟨ha, hb⟩
  rw [Char.le_def] at h1
  have h97 : 97 ≤ c.val.toNat := h1
  omega

theorem sep_toLower_fix {c : Char} (h : isSep c = true) : c.toLower = c := by
  simp only [isSep, Bool.or_eq_true, decide_eq_true_eq] at h
  rcases h with h | h <;> subst h <;> decide

theorem ws_toLower_fix {c : Char} (h : c.isWhitespace = true) : c.toLower = c := by
  simp only [Char.isWhitespace, Bool.or_eq_true, decide_eq_true_eq] at h
  rcases h with ((h | h) | h) | h <;> subst h <;> decide

theorem ws_not_lowerAZ {c : Char} (h : c.isWhitespace = true) : isLowerAZ c = false := by
  simp only [Char.isWhitespace, Bool.or_eq_true, decide_eq_true_eq] at h
  rcases h with ((h | h) | h) | h <;> subst h <;> decide

theorem mem_dedupFirstAux : ∀ (l seen : List String) (a : String),
    a ∈ dedupFirstAux seen l ↔ (a ∈ l ∧ a ∉ seen) := by
  intro l
  induction l with
  | nil => intro seen a; simp [dedupFirstAux]
  | cons x xs ih =>
    intro seen a
    by_cases hx : seen.contains x = true
    · have hxs : x ∈ seen := List.elem_iff.mp hx
      rw [dedupFirstAux, if_pos hx, ih]
      constructor
      · rintro ⟨ha, hns⟩
        exact ⟨List.mem_cons_of_mem _ ha, hns⟩
      · rintro ⟨ha, hns⟩
        rcases List.mem_cons.mp ha with rfl | ha
        · exact absurd hxs hns
        · exact ⟨ha, hns⟩
    · have hxs : x ∉ seen := fun hm => hx (List.elem_iff.mpr hm)
      rw [dedupFirstAux, if_neg hx]
      simp only [List.mem_cons, ih]
      constructor
      · rintro (rfl | ⟨ha, hns⟩)
        · exact ⟨Or.inl rfl, hxs⟩
        · exact ⟨Or.inr ha, fun hm => hns (Or.inr hm)⟩
      · rintro ⟨rfl | ha, hns⟩
        · exact Or.inl rfl
        · by_cases hax : a = x
          · exact Or.inl hax
          · exact Or.inr ⟨ha, fun hm => hm.elim hax hns⟩

theorem nodup_dedupFirstAux : ∀ (l seen : List String), (dedupFirstAux seen l).Nodup := by
  intro l
  induction l with
  | nil => intro seen; simp [dedupFirstAux]
  | cons x xs ih =>
    intro seen
    by_cases hx : seen.contains x = true
    · rw [dedupFirstAux, if_pos hx]
      exact ih seen
    · rw [dedupFirstAux, if_neg hx, List.nodup_cons]
      refine ⟨fun hm => ?_, ih _⟩
      have := (mem_dedupFirstAux _ _ _).mp hm
      exact this.2 (List.mem_cons_self _ _)

theorem mem_dedupFirst : ∀ (l : List String) (a : String), a ∈ dedupFirst l ↔ a ∈ l := by
  intro l a
  rw [dedupFirst, mem_dedupFirstAux]
  simp

theorem nodup_dedupFirst : ∀ (l : List String), (dedupFirst l).Nodup := by
  intro l
  exact nodup_dedupFirstAux _ _

theorem segEndsF_chars : ∀ (fuel : Nat) (cs : List Char) (p : List Char × List Char),
    p ∈ segEndsF fuel cs → ∀ c ∈ p.1, isLowerAZ c = true ∨ isSep c = true := by
  intro fuel
  induction fuel with
  | zero => intro cs p hp; simp [segEndsF] at hp
  | succ f ih =>
    intro cs p hp c hc
    simp only [segEndsF] at hp
    rcases List.mem_cons.mp hp with h | h
    · subst h
      exact Or.inl (List.mem_takeWhile_imp hc)
    · split at h
      · rename_i s c2 rest' heq
        split at h
        · rename_i hcond
          rcases List.mem_map.mp h with ⟨q, hq, hpq⟩
          subst hpq
          simp only at hc
          rcases List.mem_append.mp hc with hcr | hcs
          · exact Or.inl (List.mem_takeWhile_imp hcr)
          · rcases List.mem_cons.mp hcs with hcs | hcq
            · subst hcs
              exact Or.inr (Bool.and_eq_true .. ▸ hcond).1
            · exact ih (c2 :: rest') q hq c hcq
        · simp at h
      · simp at h

theorem pickEnd_mem : ∀ (l : List (List Char × List Char)) (p : List Char × List Char),
    pickEnd l = some p → p ∈ l := by
  intro l
  induction l with
  | nil => intro p hp; simp [pickEnd] at hp
  | cons q qs ih =>
    intro p hp
    rw [pickEnd] at hp
    cases hq : pickEnd qs with
    | some r =>
      rw [hq] at hp
      have hp' : some r = some p := hp
      obtain rfl : r = p := Option.some.inj hp'
      exact List.mem_cons_of_mem _ (ih _ hq)
    | none =>
      rw [hq] at hp
      have hp' : (if boundaryOk q.2 = true then some q else none) = some p := hp
      by_cases hb : boundaryOk q.2 = true
      · rw [if_pos hb] at hp'
        obtain rfl : q = p := Option.some.inj hp'
        exact List.mem_cons_self _ _
      · rw [if_neg hb] at hp'
        cases hp'

theorem findWordsAux_chars : ∀ (fuel : Nat) (prev : Option Char) (cs : List Char),
    ∀ w ∈ findWordsAux fuel prev cs, ∀ c ∈ w, isLowerAZ c = true ∨ isSep c = true := by
  intro fuel
  induction fuel with
  | zero => intro prev cs w hw; simp [findWordsAux] at hw
  | succ f ih =>
    intro prev cs w hw c hc
    cases cs with
    | nil => simp [findWordsAux] at hw
    | cons d rest =>
      simp only [findWordsAux] at hw
      split at hw
      · split at hw
        · rename_i m r hm
          rcases List.mem_cons.mp hw with h | h
          · subst h
            exact segEndsF_chars _ _ _ (pickEnd_mem _ _ hm) c hc
          · exact ih _ _ w h c hc
        · exact ih _ _ w hw c hc
      · exact ih _ _ w hw c hc

theorem findWordsAux_no_letter : ∀ (fuel : Nat) (prev : Option Char) (cs : List Char),
    (∀ c ∈ cs, isLowerAZ c = false) → findWordsAux fuel prev cs = [] := by
  intro fuel
  induction fuel with
  | zero => intro prev cs _; simp [findWordsAux]
  | succ f ih =>
    intro prev cs h
    cases cs with
    | nil => simp [findWordsAux]
    | cons d rest =>
      have hd : isLowerAZ d = false := h d (List.mem_cons_self _ _)
      simp only [findWordsAux, hd, Bool.false_and, Bool.false_eq_true, if_false]
      exact ih _ rest (fun c hc => h c (List.mem_cons_of_mem _ hc))

/-! ## C4: tokenizer guarantees -/

/-- C4.  For every input text, every token returned by `tokenize` is entirely
lowercase (every character is fixed by `toLower`), has length at least 3, and
is not in the stop-word set; `tokenize` of the empty string or of
whitespace-only input returns the empty list. -/
theorem tokenize_tokens_wellformed (text : String) :
    (∀ w ∈ tokenize text,
      (∀ c ∈ w.data, c.toLower = c) ∧ 3 ≤ w.length ∧ w ∉ stop_words)
    ∧ tokenize "" = []
    ∧ ((∀ c ∈ text.data, c.isWhitespace = true) → tokenize text = []) := by
  refine ⟨?_, by decide, ?_⟩
  · intro w hw
    rw [tokenize, List.mem_filter] at hw
    obtain ⟨hmem, hcond⟩ := hw
    rw [Bool.and_eq_true, Bool.not_eq_true', decide_eq_true_eq] at hcond
    rcases List.mem_map.mp hmem with ⟨cs, hcs, hwcs⟩
    refine ⟨?_, hcond.2, ?_⟩
    · intro c hc
      have hclass := findWordsAux_chars _ _ _ cs hcs c (by rw [← hwcs] at hc; exact hc)
      rcases hclass with h | h
      · exact lowerAZ_toLower_fix h
      · exact sep_toLower_fix h
    · intro hmemstop
      have : stop_words.contains w = true := List.elem_iff.mpr hmemstop
      rw [hcond.1] at this
      cases this
  · intro hws
    rw [tokenize]
    have : ∀ c ∈ (lowerStr text).data, isLowerAZ c = false := by
      intro c hc
      rcases List.mem_map.mp hc with ⟨d, hd, hdc⟩
      have hwd := hws d hd
      rw [← hdc, ws_toLower_fix hwd]
      exact ws_not_lowerAZ hwd
    rw [findWords, findWordsAux_no_letter _ _ _ this]
    rfl

/-! ## C3: keyword list shape -/

/-- C3.  For every job-description text, `extract_keywords` returns at most
25 strings with no duplicates, and `extract_keywords ""` is empty. -/
theorem extract_keywords_shape (job_description : String) :
    (extract_keywords job_description).length ≤ 25
    ∧ (extract_keywords job_description).Nodup
    ∧ extract_keywords "" = [] := by
  refine ⟨?_, ?_, by decide⟩
  · rw [extract_keywords]
    split
    · simp
    · rw [List.length_take]
      exact min_le_left _ _
  · rw [extract_keywords]
    split
    · exact List.nodup_nil
    · exact (nodup_dedupFirst _).sublist (List.take_sublist _ _)

theorem isSubstr_of_prefix {n h : List Char} (hp : n <+: h) : isSubstr n h = true := by
  cases h with
  | nil =>
    have : n = [] := List.prefix_nil.mp hp
    subst this
    rfl
  | cons c rest =>
    rw [isSubstr, Bool.or_eq_true]
    exact Or.inl (List.isPrefixOf_iff_prefix.mpr hp)

/-! ## C5: keyword merging -/

/-- C5 (amended).  `merge_keywords` returns the résumé unchanged for an empty
keyword list, and whenever every keyword occurs, as given, as a substring of
the lowercased résumé text (for the lowercase keywords the extractor
produces, this is case-insensitive occurrence). -/
theorem merge_keywords_unchanged :
    (∀ resume_text : String, merge_keywords resume_text [] = resume_text)
    ∧ (∀ (resume_text : String) (keywords : List String),
        (∀ kw ∈ keywords, isSubstr kw.data (lowerStr resume_text).data = true) →
        merge_keywords resume_text keywords = resume_text)
    ∧ merge_keywords "I have skills in X" [] = "I have skills in X" := by
  refine ⟨fun r => rfl, ?_, rfl⟩
  intro resume_text keywords hall
  have hmiss : keywords.filter (fun kw => !isSubstr kw.data (lowerStr resume_text).data) = [] := by
    rw [List.filter_eq_nil_iff]
    intro kw hkw
    rw [hall kw hkw]
    simp
  rw [merge_keywords]
  split
  · rfl
  · simp [hmiss]

/-- C5, counterexample to the claim as stated: the keyword "Python" appears
case-insensitively in "I use Python", yet `merge_keywords` does not return
the input unchanged (the source checks the raw keyword against the lowercased
text, so a non-lowercase keyword is always "missing"). -/
theorem merge_keywords_case_cex :
    isSubstr (lowerStr "Python").data (lowerStr "I use Python").data = true
    ∧ merge_keywords "I use Python" ["Python"] ≠ "I use Python" := by
  constructor
  · decide
  · decide

/-! ## C7: STAR bullets -/

/-- C7 (amended).  Every result of `generate_star_bullets` has at most 5
items, and for every non-empty experience text in which no sentence qualifies
(trimmed length over 20 with an action verb), the result is exactly the fixed
3-item fallback list. -/
theorem generate_star_bullets_fallback :
    (∀ (experience_text : String) (job_keywords : List String),
      (generate_star_bullets experience_text job_keywords).length ≤ 5)
    ∧ (∀ (experience_text : String) (job_keywords : List String),
        experience_text ≠ "" →
        (∀ s ∈ splitSentences experience_text.data, sentenceQualifies s = false) →
        generate_star_bullets experience_text job_keywords = starFallback)
    ∧ starFallback.length = 3 := by
  refine ⟨?_, ?_, rfl⟩
  · intro experience_text job_keywords
    rw [generate_star_bullets]
    split
    · simp
    · rw [List.length_take]
      exact min_le_left _ _
  · intro experience_text job_keywords hne hnoq
    have hb : List.filterMap
        (fun s => if sentenceQualifies s = true then some (mkBullet (trimWS s)) else none)
        (List.take 5 (splitSentences experience_text.data)) = [] := by
      rw [List.filterMap_eq_nil_iff]
      intro s hs
      rw [hnoq s ((List.take_sublist _ _).subset hs)]
      simp
    rw [generate_star_bullets, if_neg hne]
    simp only [hb]
    rfl

/-- C7, counterexample to the claim as stated: for the empty experience text
no sentence qualifies, yet the code returns `[]`, not the fallback list. -/
theorem generate_star_bullets_empty_cex :
    (∀ s ∈ splitSentences ("" : String).data, sentenceQualifies s = false)
    ∧ generate_star_bullets "" [] = []
    ∧ generate_star_bullets "" [] ≠ starFallback := by
  refine ⟨?_, rfl, ?_⟩
  · decide
  · decide

/-! ## C9: failure policy of keyword extraction -/

/-- C9.  The primary extraction pipeline, entered step by step in `Except`,
never produces an error: it returns exactly `extract_keywords`'s result, so
the `except` handler is unreachable and no exception crosses the boundary;
and the handler itself returns only gazetteer terms found as substrings of
the lowercased input, capped at 15 entries. -/
theorem extract_keywords_never_fails (job_description : String) :
    extract_keywordsTry job_description = Except.ok (extract_keywords job_description)
    ∧ (extract_keywordsFallback job_description).length ≤ 15
    ∧ (∀ kw ∈ extract_keywordsFallback job_description,
        kw ∈ common_keywords ∧ isSubstr kw.data (lowerStr job_description).data = true) := by
  refine ⟨?_, ?_, ?_⟩
  · by_cases h : job_description = ""
    · subst h
      rfl
    · rw [extract_keywords, if_neg h]
      rfl
  · rw [extract_keywordsFallback, List.length_take]
    exact min_le_left _ _
  · intro kw hkw
    have hmem := (List.take_sublist _ _).subset hkw
    rw [foundCommon, List.mem_filter] at hmem
    exact ⟨hmem.1, hmem.2⟩

/-! ## C1: gazetteer inclusion in extract_keywords -/

/-- C1 (amended).  Every gazetteer term occurring as a substring of the
lowercased job description appears in `extract_keywords`'s result, provided
the deduplicated union of frequency terms and gazetteer matches fits the
25-entry cap; in particular both example texts include their named terms.
(Without the proviso the 25-cap can evict gazetteer matches, see the
counterexample.) -/
theorem extract_keywords_gazetteer :
    (∀ (jd kw : String), jd ≠ "" →
      (dedupFirst (extractedTerms jd ++ foundCommon jd)).length ≤ 25 →
      kw ∈ common_keywords → isSubstr kw.data (lowerStr jd).data = true →
      kw ∈ extract_keywords jd)
    ∧ "python" ∈ extract_keywords "Python developer with Python and SQL experience"
    ∧ "sql" ∈ extract_keywords "Python developer with Python and SQL experience"
    ∧ "python" ∈ extract_keywords
        "We need a Python developer with AWS and Docker experience, strong communication skills"
    ∧ "aws" ∈ extract_keywords
        "We need a Python developer with AWS and Docker experience, strong communication skills"
    ∧ "docker" ∈ extract_keywords
        "We need a Python developer with AWS and Docker experience, strong communication skills" := by
  refine ⟨?_, by decide, by decide, by decide, by decide, by decide⟩
  intro jd kw hne hlen hgaz hsub
  rw [extract_keywords, if_neg hne, List.take_of_length_le hlen]
  exact (mem_dedupFirst _ _).mpr
    (List.mem_append_right _ (List.mem_filter.mpr ⟨hgaz, hsub⟩))

/-- C1, counterexample to the claim as stated: on a job description hitting
all 32 gazetteer terms the union exceeds the 25-entry cap, and the gazetteer
term "database" is a substring of the lowercased text yet is missing from
the result. -/
theorem extract_keywords_gazetteer_cex :
    "database" ∈ common_keywords
    ∧ isSubstr "database".data (lowerStr jdAllGaz).data = true
    ∧ "database" ∉ extract_keywords jdAllGaz := by
  refine ⟨by decide, by decide, by decide⟩

/-! ## C6: summary synthesis -/

theorem summary_contains_aux (mid : String) :
    isSubstr "Results-driven student with practical exposure to".data
      ("Results-driven student with practical exposure to " ++ mid ++
        ". Possesses strong analytical thinking, adaptability, and a continuous learning mindset. " ++
        "Actively seeking opportunities to contribute to impactful projects and grow professionally.").data
      = true := by
  apply isSubstr_of_prefix
  have h1 : "Results-driven student with practical exposure to".data <+:
      "Results-driven student with practical exposure to ".data :=
    List.isPrefixOf_iff_prefix.mp (by decide)
  simp only [String.data_append, List.append_assoc]
  exact h1.trans (List.prefix_append _ _)

theorem dropWhile_head_false {p : Char → Bool} :
    ∀ (l : List Char) {c : Char} {rest : List Char},
      l.dropWhile p = c :: rest → p c = false := by
  intro l
  induction l with
  | nil => intro c rest h; cases h
  | cons d l ih =>
    intro c rest h
    by_cases hd : p d = true
    · rw [List.dropWhile_cons_of_pos hd] at h
      exact ih h
    · rw [List.dropWhile_cons_of_neg hd] at h
      cases h
      exact Bool.not_eq_true _ ▸ hd

theorem collapseWS_ne_empty {s : String} (h : ∃ c ∈ s.data, c.isWhitespace = false) :
    collapseWS s ≠ "" := by
  obtain ⟨c0, hc0, hws0⟩ := h
  have hdropne : s.data.dropWhile Char.isWhitespace ≠ [] := by
    intro hnil
    rw [List.dropWhile_eq_nil_iff] at hnil
    rw [hnil c0 hc0] at hws0
    cases hws0
  intro habs
  have hdata : joinSp (wsWordsF (s.data.length + 1) s.data) = [] := by
    have := congrArg String.data habs
    exact this
  rcases hcase : s.data.dropWhile Char.isWhitespace with _ | ⟨c, rest⟩
  · exact hdropne hcase
  · have hc : Char.isWhitespace c = false := dropWhile_head_false _ hcase
    have htake : (c :: rest).takeWhile (fun d => !d.isWhitespace) =
        c :: rest.takeWhile (fun d => !d.isWhitespace) :=
      List.takeWhile_cons_of_pos (by rw [hc]; rfl)
    rw [wsWordsF, hcase] at hdata
    simp only [htake] at hdata
    rcases hrest : wsWordsF (s.data.length) ((c :: rest).dropWhile (fun d => !d.isWhitespace))
      with _ | ⟨w, ws'⟩
    · rw [hrest] at hdata
      cases hdata
    · rw [hrest] at hdata
      cases hdata

/-- C6 (amended).  `enhance_resume "" ""` is the fixed generic sentence
verbatim, and for every résumé text containing at least one non-whitespace
character (with any job description) the summary contains the phrase
"Results-driven student with practical exposure to". -/
theorem enhance_resume_phrase :
    enhance_resume "" "" = genericSummary
    ∧ (∀ (resume_text job_description : String),
        (∃ c ∈ resume_text.data, c.isWhitespace = false) →
        isSubstr "Results-driven student with practical exposure to".data
          (enhance_resume resume_text job_description).data = true) := by
  refine ⟨rfl, ?_⟩
  intro resume_text job_description h
  have hne : collapseWS resume_text ≠ "" := collapseWS_ne_empty h
  simp only [enhance_resume]
  rw [if_neg hne]
  exact summary_contains_aux _

/-- C6, counterexample to the claim as stated: the résumé text " " is
non-empty, yet the summary is the generic fallback, which does not contain
the phrase. -/
theorem enhance_resume_whitespace_cex :
    (" " : String) ≠ ""
    ∧ isSubstr "Results-driven student with practical exposure to".data
        (enhance_resume " " "").data = false := by
  refine ⟨by decide, by decide⟩

/-! ## C8: cover letter (empty job description) -/

/-- C8.  At the failing input (name "Jane", empty job description, non-empty
résumé): the letter is signed with the name, the empty-résumé variant shows
"Your Name" and "relevant field", the first 3 extracted keywords are
"python", "sql", "experience" — but the letter interpolates the Python list
repr `['python', 'sql', 'experience']`, not the comma-joined phrase
"python, sql, experience", which is absent. -/
theorem generate_cover_letter_list_repr_bug :
    isSubstr "Your Name".data (generate_cover_letter "" "" "").data = true
    ∧ isSubstr "relevant field".data (generate_cover_letter "" "" "").data = true
    ∧ isSubstr "Jane".data
        (generate_cover_letter "Jane" "" "Python and SQL experience").data = true
    ∧ (extract_keywords "Python and SQL experience").take 3 = ["python", "sql", "experience"]
    ∧ isSubstr (listRepr ["python", "sql", "experience"]).data
        (generate_cover_letter "Jane" "" "Python and SQL experience").data = true
    ∧ isSubstr (joinCommaSp ["python", "sql", "experience"]).data
        (generate_cover_letter "Jane" "" "Python and SQL experience").data = false := by
  refine ⟨by decide, by decide, by decide, by decide, by decide, by decide⟩

/-! ## TF-IDF structural lemmas -/

theorem mem_tfidfEntries {documents : List String} {w : String} {i : Nat} {s : ℝ} :
    (w, i, s) ∈ tfidfEntries documents ↔
      (i < documents.length ∧ w ∈ tokenize (documents.getD i "")
        ∧ s = rawTfidf documents w i ∧ 1 / 100 < s) := by
  rw [tfidfEntries, List.mem_flatMap]
  constructor
  · rintro ⟨j, hj, hmem⟩
    rw [List.mem_filterMap] at hmem
    obtain ⟨word, hword, hsome⟩ := hmem
    by_cases hcond : (1 : ℝ) / 100 < rawTfidf documents word j
    · rw [if_pos hcond] at hsome
      have h1 := Option.some.inj hsome
      rw [Prod.mk.injEq, Prod.mk.injEq] at h1
      obtain ⟨h1a, h1b, h1c⟩ := h1
      subst h1a
      subst h1b
      subst h1c
      exact ⟨List.mem_range.mp hj, (mem_dedupFirst _ _).mp hword, rfl, hcond⟩
    · rw [if_neg hcond] at hsome
      cases hsome
  · rintro ⟨hi, hw, rfl, hgt⟩
    refine ⟨i, List.mem_range.mpr hi, ?_⟩
    rw [List.mem_filterMap]
    exact ⟨w, (mem_dedupFirst _ _).mpr hw, by rw [if_pos hgt]⟩

theorem tfidfScoreOf_nonneg (documents : List String) (w : String) (i : Nat) :
    0 ≤ tfidfScoreOf documents w i := by
  rw [tfidfScoreOf]
  cases hf : (tfidfEntries documents).find? (fun e => e.1 = w ∧ e.2.1 = i) with
  | none => exact le_refl 0
  | some e =>
    obtain ⟨ew, ei, es⟩ := e
    have hmem := List.mem_of_find?_eq_some hf
    obtain ⟨_, _, _, hgt⟩ := mem_tfidfEntries.mp hmem
    have h100 : (0 : ℝ) < 1 / 100 := by norm_num
    exact le_of_lt (lt_trans h100 hgt)

theorem tfidfScoreOf_of_entry {documents : List String} {w : String} {i : Nat}
    (hi : i < documents.length) (hw : w ∈ tokenize (documents.getD i ""))
    (hgt : 1 / 100 < rawTfidf documents w i) :
    tfidfScoreOf documents w i = rawTfidf documents w i := by
  rw [tfidfScoreOf]
  cases hf : (tfidfEntries documents).find? (fun e => e.1 = w ∧ e.2.1 = i) with
  | none =>
    rw [List.find?_eq_none] at hf
    have hmem : (w, i, rawTfidf documents w i) ∈ tfidfEntries documents :=
      mem_tfidfEntries.mpr ⟨hi, hw, rfl, hgt⟩
    exact absurd (by simp) (hf _ hmem)
  | some e =>
    obtain ⟨ew, ei, es⟩ := e
    have hpred := List.find?_some hf
    rw [decide_eq_true_eq] at hpred
    obtain ⟨h1, h2⟩ := hpred
    subst h1
    subst h2
    have hmem := List.mem_of_find?_eq_some hf
    obtain ⟨_, _, hs, _⟩ := mem_tfidfEntries.mp hmem
    exact hs

theorem tfidfScoreOf_eq_zero {documents : List String} {w : String} {i : Nat}
    (h : ¬(1 / 100 < rawTfidf documents w i ∧ w ∈ tokenize (documents.getD i ""))) :
    tfidfScoreOf documents w i = 0 := by
  rw [tfidfScoreOf]
  cases hf : (tfidfEntries documents).find? (fun e => e.1 = w ∧ e.2.1 = i) with
  | none => rfl
  | some e =>
    obtain ⟨ew, ei, es⟩ := e
    have hpred := List.find?_some hf
    rw [decide_eq_true_eq] at hpred
    obtain ⟨h1, h2⟩ := hpred
    subst h1
    subst h2
    have hmem := List.mem_of_find?_eq_some hf
    obtain ⟨hi, hw, hs, hgt⟩ := mem_tfidfEntries.mp hmem
    exact absurd ⟨hs ▸ hgt, hw⟩ h

/-! ## C2: monotonicity of the assigned TF-IDF score -/

/-- C2.  Holding the rest of the corpus fixed, increasing the number of
occurrences of term `t` in document `i` by `k` (so its count and the
document's token total both grow by `k`) never decreases the score
`calculate_tfidf` assigns to `(t, i)` (absent entries scoring 0). -/
theorem calculate_tfidf_monotone (documents : List String) (i : Nat) (di' : String)
    (t : String) (k : Nat)
    (hi : i < documents.length) (hk : 0 < k)
    (hcount : (tokenize di').count t = (tokenize (documents.getD i "")).count t + k)
    (hlen : (tokenize di').length = (tokenize (documents.getD i "")).length + k) :
    tfidfScoreOf documents t i ≤ tfidfScoreOf (documents.set i di') t i := by
  have hgetD' : (documents.set i di').getD i "" = di' := by
    rw [List.getD_eq_getElem?_getD, List.getElem?_set_self hi]
    rfl
  have hlen' : (documents.set i di').length = documents.length := List.length_set ..
  by_cases hpos : (1 : ℝ) / 100 < rawTfidf documents t i
      ∧ t ∈ tokenize (documents.getD i "")
  · obtain ⟨hgt, htT⟩ := hpos
    have hc1 : 0 < (tokenize (documents.getD i "")).count t := List.count_pos_iff.mpr htT
    have hcL : (tokenize (documents.getD i "")).count t ≤ (tokenize (documents.getD i "")).length :=
      List.count_le_length _ _
    have hL1 : 0 < (tokenize (documents.getD i "")).length := lt_of_lt_of_le hc1 hcL
    have htT' : t ∈ tokenize di' := by
      rw [← List.count_pos_iff, hcount]
      omega
    have hgetDi : documents.getD i "" = documents[i] := by
      rw [List.getD_eq_getElem?_getD, List.getElem?_eq_getElem hi]
      rfl
    have him : i < (documents.map tokenize).length := by
      rw [List.length_map]
      exact hi
    have hcountP : ((documents.set i di').map tokenize).countP
        (fun tokens => tokens.contains t)
        = (documents.map tokenize).countP (fun tokens => tokens.contains t) := by
      rw [List.map_set, List.countP_set _ _ _ _ him]
      have hgetl : (documents.map tokenize)[i] = tokenize (documents.getD i "") := by
        rw [List.getElem_map, hgetDi]
      have hp_old : ((documents.map tokenize)[i]).contains t = true := by
        rw [hgetl]
        exact List.elem_iff.mpr htT
      have hp_new : (tokenize di').contains t = true := List.elem_iff.mpr htT'
      rw [hp_old, hp_new]
      have hposP : 0 < (documents.map tokenize).countP (fun tokens => tokens.contains t) := by
        rw [List.countP_pos_iff]
        exact ⟨(documents.map tokenize)[i], List.getElem_mem _, hp_old⟩
      simp only [if_true]
      omega
    have hidf : idfOf (documents.set i di') t = idfOf documents t := by
      rw [idfOf, idfOf, hlen', hcountP]
    have htf_pos : (0 : ℝ) < ((tokenize (documents.getD i "")).count t : ℝ)
        / ((tokenize (documents.getD i "")).length : ℝ) :=
      div_pos (by exact_mod_cast hc1) (by exact_mod_cast hL1)
    have hidf_pos : 0 < idfOf documents t := by
      by_contra hle
      push_neg at hle
      have hraw_np : rawTfidf documents t i ≤ 0 := by
        rw [rawTfidf]
        exact mul_nonpos_of_nonneg_of_nonpos (le_of_lt htf_pos) hle
      have h100 : (0 : ℝ) < 1 / 100 := by norm_num
      linarith
    have htf_le : ((tokenize (documents.getD i "")).count t : ℝ)
          / ((tokenize (documents.getD i "")).length : ℝ)
        ≤ (((tokenize (documents.getD i "")).count t + k : ℕ) : ℝ)
          / (((tokenize (documents.getD i "")).length + k : ℕ) : ℝ) := by
      rw [div_le_div_iff₀ (by exact_mod_cast hL1) (by exact_mod_cast (by omega : 0 < (tokenize (documents.getD i "")).length + k))]
      push_cast
      have hcLR : ((tokenize (documents.getD i "")).count t : ℝ)
          ≤ ((tokenize (documents.getD i "")).length : ℝ) := by exact_mod_cast hcL
      have hkR : (0 : ℝ) ≤ (k : ℝ) := Nat.cast_nonneg k
      have hck : ((tokenize (documents.getD i "")).count t : ℝ) * (k : ℝ)
          ≤ ((tokenize (documents.getD i "")).length : ℝ) * (k : ℝ) :=
        mul_le_mul_of_nonneg_right hcLR hkR
      linarith
    have hraw' : rawTfidf (documents.set i di') t i
        = (((tokenize (documents.getD i "")).count t + k : ℕ) : ℝ)
          / (((tokenize (documents.getD i "")).length + k : ℕ) : ℝ) * idfOf documents t := by
      rw [rawTfidf, hgetD', hcount, hlen, hidf]
    have hrawle : rawTfidf documents t i ≤ rawTfidf (documents.set i di') t i := by
      rw [rawTfidf, hraw']
      exact mul_le_mul_of_nonneg_right htf_le (le_of_lt hidf_pos)
    have hgt' : (1 : ℝ) / 100 < rawTfidf (documents.set i di') t i := lt_of_lt_of_le hgt hrawle
    rw [tfidfScoreOf_of_entry hi htT hgt,
      tfidfScoreOf_of_entry (by rw [hlen']; exact hi) (by rw [hgetD']; exact htT') hgt']
    exact hrawle
  · rw [tfidfScoreOf_eq_zero hpos]
    exact tfidfScoreOf_nonneg _ _ _

/-- C2 witness: a concrete two-document corpus in which one more "python" is
added to document 0. -/
theorem calculate_tfidf_monotone_witness :
    tfidfScoreOf ["python code python code", "java code"] "python" 0
      ≤ tfidfScoreOf ((["python code python code", "java code"]).set 0
          "python code python code python") "python" 0 :=
  calculate_tfidf_monotone ["python code python code", "java code"] 0
    "python code python code python" "python" 1
    (by decide) (by decide) (by decide) (by decide)

/-! ## C10: single-document corpora score nothing -/

/-- C10.  For every corpus of exactly one document, `calculate_tfidf` returns
the empty mapping: each term occurs in the single document, so its idf is
`log (1/2) < 0`, the product with the nonnegative term frequency is ≤ 0, and
the strict 0.01 threshold excludes it. -/
theorem calculate_tfidf_singleton (d : String) : calculate_tfidf [d] = [] := by
  have hent : tfidfEntries [d] = [] := by
    rw [tfidfEntries]
    rw [show List.range ([d] : List String).length = [0] from rfl]
    simp only [List.flatMap_cons, List.flatMap_nil, List.append_nil]
    rw [List.filterMap_eq_nil_iff]
    intro w hw
    have hwT : w ∈ tokenize (([d] : List String).getD 0 "") := (mem_dedupFirst _ _).mp hw
    have hcontains : (tokenize (([d] : List String).getD 0 "")).contains w = true :=
      List.elem_iff.mpr hwT
    have hcp : (([d] : List String).map tokenize).countP (fun tokens => tokens.contains w) = 1 := by
      simp only [List.map_cons, List.map_nil, List.countP_cons, List.countP_nil]
      rw [show (tokenize d).contains w = true from hcontains]
      simp
    have hidf_neg : idfOf [d] w < 0 := by
      rw [idfOf, hcp]
      have h2 : ((([d] : List String).length : ℝ))
          / (((1 : ℕ) : ℝ) + 1) = 1 / 2 := by
        norm_num
      rw [h2]
      exact Real.log_neg (by norm_num) (by norm_num)
    have htf_nonneg : (0 : ℝ) ≤ ((tokenize (([d] : List String).getD 0 "")).count w : ℝ)
        / ((tokenize (([d] : List String).getD 0 "")).length : ℝ) :=
      div_nonneg (Nat.cast_nonneg _) (Nat.cast_nonneg _)
    have hraw_np : rawTfidf [d] w 0 ≤ 0 := by
      rw [rawTfidf]
      exact mul_nonpos_of_nonneg_of_nonpos htf_nonneg (le_of_lt hidf_neg)
    have hnot : ¬ (1 : ℝ) / 100 < rawTfidf [d] w 0 := by
      intro hlt
      have h100 : (0 : ℝ) < 1 / 100 := by norm_num
      linarith
    rw [if_neg hnot]
  rw [calculate_tfidf, hent]
  rfl

end ResumeApp
